import Mathlib

/-!
Shallow embedding of the metric tracing and state-aggregation core of the
rillrate repository: the histogram aggregation engine
(src/rill-protocol/src/data/histogram.rs), the bounded log buffer
(src/rill/src/tracers/logger.rs) and the generic dual-mode tracer
(src/rill-engine/src/tracers/tracer.rs).

Numeric values carried by events (Rust `f64`) are modelled as exact rationals
`ℚ`; the `OrderedFloat<f64>` keys of the histogram's `BTreeMap` are modelled
by the type `Level` below (a rational or `+infinity`), whose order agrees with
`OrderedFloat` on every non-NaN value. Timestamps (`Timestamp`, produced from
`Duration`) are modelled as `ℕ`; a `SystemTime` is modelled as an `Int`
offset from the Unix epoch, so that `duration_since(UNIX_EPOCH)` fails
exactly on negative offsets.
-/

/-- A bucket level of the histogram: a finite value or `+infinity`.
Models the `OrderedFloat<f64>` keys of `HistogramState::buckets`
(NaN keys are outside the model). -/
inductive Level where
  | fin (q : ℚ)
  | inf
deriving DecidableEq, Repr

/-- The total order on `Level`, as a boolean test; mirrors the `Ord` instance
of `OrderedFloat<f64>` restricted to non-NaN values, where `f64::INFINITY` is
the greatest element. -/
def Level.leB : Level → Level → Bool
  | _, .inf => true
  | .inf, .fin _ => false
  | .fin a, .fin b => decide (a ≤ b)

/-- `timestamp` plus payload; models `TimedEvent<Event>` from rill-protocol. -/
structure TimedEvent (ε : Type) where
  timestamp : ℕ
  event : ε
deriving DecidableEq, Repr

/-- `Stat { sum: f64, count: u64 }` from histogram.rs. -/
structure Stat where
  sum : ℚ
  count : ℕ
deriving DecidableEq, Repr

/-- `Stat::default()`: `{ sum: 0.0, count: 0 }`. -/
def Stat.default : Stat := ⟨0, 0⟩

/-- `Stat::add`: `sum += value; count += 1`. -/
def Stat.add (s : Stat) (value : ℚ) : Stat :=
  { sum := s.sum + value, count := s.count + 1 }

/-- `HistogramEvent` from histogram.rs: a single observed value. -/
inductive HistogramEvent where
  | Add (amount : ℚ)
deriving DecidableEq, Repr

/-- The buckets map `BTreeMap<OrderedFloat<f64>, Stat>` is modelled as an
association list sorted strictly ascending by level; iteration order of the
list is the ascending key order of the `BTreeMap`. -/
abbrev Buckets := List (Level × Stat)

/-- `HistogramState` from histogram.rs. -/
structure HistogramState where
  buckets : Buckets
  total : Stat
deriving DecidableEq, Repr

/-- Insertion into the sorted association list: models `BTreeMap` insertion
(an equal key overwrites the stored value, otherwise the key is placed at its
ordered position). -/
def bucketsInsert (k : Level) (v : Stat) : Buckets → Buckets
  | [] => [(k, v)]
  | (k', v') :: rest =>
    if Level.leB k k' then
      if Level.leB k' k then (k, v) :: rest
      else (k, v) :: (k', v') :: rest
    else (k', v') :: bucketsInsert k v rest

/-- Membership test on keys; models `BTreeMap::contains_key`. -/
def hasKey (k : Level) (bs : Buckets) : Bool :=
  bs.any fun p => p.1 = k

/-- `buckets.entry(k).or_default()`: insert `Stat::default()` only when the
key is absent. -/
def entryOrDefault (k : Level) (bs : Buckets) : Buckets :=
  if hasKey k bs then bs else bucketsInsert k Stat.default bs

/-- `HistogramState::new(levels)`: collect `(level, Stat::default())` pairs
into the `BTreeMap`, then force the `+infinity` entry to exist. -/
def HistogramState.new (levels : List Level) : HistogramState :=
  { buckets :=
      entryOrDefault Level.inf
        (levels.foldl (fun acc l => bucketsInsert l Stat.default acc) [])
    total := Stat.default }

/-- The bucket scan of `HistogramMetric::apply`: walk the map in ascending
key order, add the amount to the first bucket whose level satisfies
`expected <= level`, then `break`. -/
def applyBuckets (v : ℚ) : Buckets → Buckets
  | [] => []
  | (level, stat) :: rest =>
    if Level.leB (Level.fin v) level then (level, stat.add v) :: rest
    else (level, stat) :: applyBuckets v rest

/-- `HistogramMetric::apply`: `state.total.add(amount)` unconditionally, then
the first-matching-bucket scan. The timestamp of the event is not consulted. -/
def HistogramMetric.apply (state : HistogramState) (event : TimedEvent HistogramEvent) :
    HistogramState :=
  match event.event with
  | .Add amount =>
    { total := state.total.add amount
      buckets := applyBuckets amount state.buckets }

/-- Modelled from the spec: `Pct::from_div` of rill-protocol is not under
src/ (only its call site in `HistogramState::bars` is). The spec says the
rendered percentage "computes each bucket's percentage share as
`bucket.sum / total.sum` (defined as 0 when total is 0,
never divide-by-zero-panics)". -/
def Pct.from_div (value total : ℚ) : ℚ :=
  if total = 0 then 0 else value / total

/-- `Bar` from histogram.rs. -/
structure Bar where
  level : Level
  count : ℕ
  pct : ℚ
deriving DecidableEq, Repr

/-- `HistogramState::bars`: one `Bar` per bucket, with
`pct = Pct::from_div(stat.sum, total.sum)`. -/
def HistogramState.bars (s : HistogramState) : List Bar :=
  s.buckets.map fun p => ⟨p.1, p.2.count, Pct.from_div p.2.sum s.total.sum⟩

/-! ## Log tracer (src/rill/src/tracers/logger.rs) -/

/-- `FRAME_SIZE` from logger.rs. -/
def FRAME_SIZE : ℕ := 20

/-- A `RillEvent` holding a `RillData::LogRecord { message }`; only the
log-record payload appears in logger.rs, so the data is its message. -/
structure RillEvent where
  timestamp : ℕ
  message : String
deriving DecidableEq, Repr

/-- `LogState`: the `VecDeque<RillEvent>` ring, front of the deque first
(head of the list = oldest record). -/
structure LogState where
  records : List RillEvent
deriving DecidableEq, Repr

/-- `LogState::default()`: empty buffer. -/
def LogState.default : LogState := ⟨[]⟩

/-- `LogRecord::aggregate` for `Message(msg)`: pop the front when
`records.len() > FRAME_SIZE`, then push the new record at the back. -/
def LogRecord.aggregate (msg : String) (state : LogState) (timestamp : ℕ) : LogState :=
  let records :=
    if state.records.length > FRAME_SIZE then state.records.tail else state.records
  ⟨records ++ [⟨timestamp, msg⟩]⟩

/-- `LogRecord::to_snapshot`: the buffer contents in order, front (oldest)
first. -/
def LogRecord.to_snapshot (state : LogState) : List RillEvent :=
  state.records

/-- Folding a sequence of `(message, timestamp)` pairs through
`LogRecord::aggregate` from a given state. -/
def logFold (state : LogState) : List (String × ℕ) → LogState
  | [] => state
  | (msg, ts) :: rest => logFold (LogRecord.aggregate msg state ts) rest

/-! ## Generic tracer (src/rill-engine/src/tracers/tracer.rs) -/

/-- The pure part of the `Metric` trait from rill-protocol, as it is used by
the tracer: the deterministic state-transition function and the stream-type
token. The associated types `State` and `Event` are the parameters `σ`, `ε`. -/
structure Metric (σ ε : Type) where
  apply : σ → TimedEvent ε → σ
  stream_type : String

/-- `Description { path, info, stream_type }` from rill-protocol; `Path` is
modelled by its rendered string. -/
structure Description where
  path : String
  info : String
  stream_type : String
deriving DecidableEq, Repr

/-- A `SystemTime`, as an integer offset in time units from
`SystemTime::UNIX_EPOCH`; negative offsets are times before the epoch. -/
abbrev SysTime := Int

/-- `SystemTime::duration_since(UNIX_EPOCH).map(Timestamp::from)`: succeeds
exactly when the time is not before the epoch. The error payload of
`SystemTimeError` is irrelevant to the tracer (it is only logged). -/
def durationSinceEpoch (t : SysTime) : Except Unit ℕ :=
  if 0 ≤ t then .ok t.toNat else .error ()

/-- The single `Arc<Mutex<State>>` allocation made for a Pull-mode tracer:
its strong reference count and the guarded state. `Weak` handles do not
contribute to `strong`. -/
structure ArcCell (σ : Type) where
  strong : ℕ
  value : σ
deriving DecidableEq, Repr

/-- `Weak::upgrade` on a handle to the cell: succeeds only while a strong
reference keeps the allocation alive. -/
def ArcCell.upgrade (c : ArcCell σ) : Option σ :=
  if 0 < c.strong then some c.value else none

/-- `InnerMode<T>` from tracer.rs — the mode half stored inside the
`Tracer` itself. `push` holds the sender of the unbounded channel, modelled
by the queue of events already sent on it; `pull` holds the STRONG
`Arc<Mutex<State>>`. -/
inductive InnerMode (σ ε : Type) where
  | push (queue : List (TimedEvent ε))
  | pull (cell : ArcCell σ)
deriving DecidableEq, Repr

/-- `Tracer<T>` from tracer.rs: the activation watch receiver (modelled by
the boolean it currently observes), the shared `Description`, and the
`InnerMode`. -/
structure Tracer (σ ε : Type) where
  active : Bool
  description : Description
  mode : InnerMode σ ε
deriving DecidableEq, Repr

/-- `Tracer::is_active`: `*self.active.borrow()`. -/
def Tracer.is_active (t : Tracer σ ε) : Bool :=
  t.active

/-- The `Clone` impl of `InnerMode`: a sender clone shares the same channel,
an `Arc` clone shares the same allocation; in this by-value model the shared
handle is copied unchanged (the cross-handle aliasing of the Pull cell is
modelled separately by `PullWorld`). -/
def InnerMode.clone (m : InnerMode σ ε) : InnerMode σ ε :=
  match m with
  | .push queue => .push queue
  | .pull cell => .pull cell

/-- The `Clone` impl of `Tracer`: duplicate the watch receiver, the `Arc` of
the description and the mode handle. -/
def Tracer.clone (t : Tracer σ ε) : Tracer σ ε :=
  { active := t.active, description := t.description, mode := t.mode.clone }

/-- `Tracer::new(state, path, pull)` from tracer.rs. `registerResult` is the
answer of the external Registration Link (`RILL_LINK.register_tracer`),
passed in as a parameter of the model: the code only logs its error. The
watch channel is created with value `true` and its sender `_active_tx` is
dropped at once, so the receiver observes `true`. A Pull interval allocates
the state cell with one strong reference (the tracer's own `Arc`; the link
is handed only a `Weak` via `Arc::downgrade`); otherwise a fresh empty
unbounded channel is created. -/
def Tracer.new (M : Metric σ ε) (state : σ) (path : String) (pull : Option ℕ)
    (registerResult : Except String Unit) : Tracer σ ε :=
  let description : Description :=
    { path := path
      info := path ++ " - " ++ M.stream_type
      stream_type := M.stream_type }
  let inner_mode : InnerMode σ ε :=
    match pull with
    | some _interval => .pull { strong := 1, value := state }
    | none => .push []
  match registerResult with
  | .ok _ => { active := true, description := description, mode := inner_mode }
  | .error _err => { active := true, description := description, mode := inner_mode }

/-- `Tracer::send(data, opt_system_time)` from tracer.rs. `now` is the
ambient `SystemTime::now()` sample, a parameter of the pure model. The
activation gate is checked first; then the timestamp is derived (an error is
logged and the event dropped); then the event is dispatched by mode: pushed
onto the unbounded channel, or applied in place to the Pull state under the
lock. A poisoned mutex cannot arise in this single-threaded pure model, so
the `state.lock()` in the Pull branch always succeeds, and the channel's
receiver is modelled as attached, so `unbounded_send` always succeeds. -/
def Tracer.send (M : Metric σ ε) (t : Tracer σ ε) (data : ε)
    (opt_system_time : Option SysTime) (now : SysTime) : Tracer σ ε :=
  if t.is_active then
    match durationSinceEpoch (opt_system_time.getD now) with
    | .ok timestamp =>
      let timed_event : TimedEvent ε := { timestamp := timestamp, event := data }
      match t.mode with
      | .push queue => { t with mode := .push (queue ++ [timed_event]) }
      | .pull cell =>
        { t with mode := .pull { cell with value := M.apply cell.value timed_event } }
    | .error _err => t
  else t

/-! ## The two sides of a Pull-mode tracer (for the `Weak`/`Arc` lifetime)

`Tracer::new` in Pull mode creates one `Arc<Mutex<State>>`, stores the
strong `Arc` in the tracer's `InnerMode::Pull`, and hands
`TracerMode::Pull { state: Arc::downgrade(&state), interval }` — a `Weak` —
to the Collecting Engine through the Registration Link. `PullWorld` models
that one shared allocation together with who still holds a handle to it. -/
structure PullWorld (σ : Type) where
  cell : ArcCell σ
  tracerActive : Bool
  engineHasWeak : Bool
deriving DecidableEq, Repr

/-- Construction of the Pull sides by `Tracer::new`: `Arc::new` gives strong
count 1 (held by the tracer's `InnerMode::Pull`); `Arc::downgrade` hands the
engine a `Weak` without touching the strong count. -/
def PullWorld.new (state : σ) : PullWorld σ :=
  { cell := { strong := 1, value := state }, tracerActive := true, engineHasWeak := true }

/-- The Collecting Engine drops the `TracerMode::Pull` it received: dropping
a `Weak` never changes the strong count. -/
def PullWorld.engineDrop (w : PullWorld σ) : PullWorld σ :=
  { w with engineHasWeak := false }

/-- What the engine can still observe: upgrading its `Weak` (if it kept one). -/
def PullWorld.enginePoll (w : PullWorld σ) : Option σ :=
  if w.engineHasWeak then w.cell.upgrade else none

/-- `Tracer::send` on the Pull side of the world: the same code path as
`Tracer.send`, acting on the shared cell through the tracer's strong `Arc`. -/
def PullWorld.send (M : Metric σ ε) (w : PullWorld σ) (data : ε)
    (opt_system_time : Option SysTime) (now : SysTime) : PullWorld σ :=
  if w.tracerActive then
    match durationSinceEpoch (opt_system_time.getD now) with
    | .ok timestamp =>
      { w with cell :=
          { w.cell with value := M.apply w.cell.value { timestamp := timestamp, event := data } } }
    | .error _err => w
  else w

/-- The histogram metric packaged for the tracer model
(`HistogramMetric` with `stream_type() = "rillrate.histogram.v0"`). -/
def HistogramMetric : Metric HistogramState HistogramEvent :=
  { apply := HistogramMetric.apply, stream_type := "rillrate.histogram.v0" }

/-- The strict order on `Level` (used to state the `BTreeMap` representation
invariant: keys strictly ascending). -/
def Level.ltB : Level → Level → Bool
  | .inf, _ => false
  | .fin _, .inf => true
  | .fin a, .fin b => decide (a < b)

/-- Adjacent keys strictly ascending, as a boolean test. -/
def sortedBucketsB : Buckets → Bool
  | [] => true
  | [_] => true
  | p :: q :: rest => Level.ltB p.1 q.1 && sortedBucketsB (q :: rest)

/-- The representation invariant of the `BTreeMap` model: the association
list is strictly ascending in its keys, which is the map's iteration order. -/
abbrev sortedBuckets (bs : Buckets) : Prop :=
  sortedBucketsB bs = true

/-- Sum of the `sum` fields over all buckets. -/
def bucketSums (bs : Buckets) : ℚ :=
  (bs.map fun p => p.2.sum).sum

/-- All stats in a bucket list are the default (zero) stat. -/
def allZero (bs : Buckets) : Prop :=
  ∀ p ∈ bs, p.2 = Stat.default

/-- The amount carried by a histogram event. -/
def amountOf : TimedEvent HistogramEvent → ℚ
  | ⟨_, .Add a⟩ => a

/-- All bucket sums are nonnegative. -/
def allNonneg (bs : Buckets) : Prop :=
  ∀ p ∈ bs, 0 ≤ p.2.sum

/-- Every level compares `<=` against `+infinity`. -/
theorem Level.leB_inf (l : Level) : Level.leB l Level.inf = true := by
  cases l <;> rfl

/-- The bucket scan never changes the key sequence. -/
theorem keys_applyBuckets (v : ℚ) (bs : Buckets) :
    (applyBuckets v bs).map Prod.fst = bs.map Prod.fst := by
  induction bs with
  | nil => rfl
  | cons p rest ih =>
    obtain ⟨level, stat⟩ := p
    by_cases h : Level.leB (Level.fin v) level = true
    · simp [applyBuckets, h]
    · simp [applyBuckets, h, ih]

/-- `HistogramMetric::apply` never adds or removes buckets. -/
theorem keys_apply (s : HistogramState) (e : TimedEvent HistogramEvent) :
    (HistogramMetric.apply s e).buckets.map Prod.fst = s.buckets.map Prod.fst := by
  obtain ⟨ts, a⟩ := e
  cases a
  simp [HistogramMetric.apply, keys_applyBuckets]

/-- Folding `apply` over any event sequence never changes the key sequence. -/
theorem keys_foldl (events : List (TimedEvent HistogramEvent)) (s : HistogramState) :
    (List.foldl HistogramMetric.apply s events).buckets.map Prod.fst
      = s.buckets.map Prod.fst := by
  induction events generalizing s with
  | nil => rfl
  | cons e rest ih => rw [List.foldl_cons, ih, keys_apply]

/-- `hasKey` agrees with key membership. -/
theorem hasKey_iff_mem (k : Level) (bs : Buckets) :
    hasKey k bs = true ↔ k ∈ bs.map Prod.fst := by
  simp only [hasKey, List.any_eq_true, decide_eq_true_eq, List.mem_map]

/-- An inserted key is a key of the result. -/
theorem hasKey_bucketsInsert_self (k : Level) (v : Stat) (bs : Buckets) :
    hasKey k (bucketsInsert k v bs) = true := by
  induction bs with
  | nil => simp [bucketsInsert, hasKey]
  | cons p rest ih =>
    by_cases h1 : Level.leB k p.1 = true
    · by_cases h2 : Level.leB p.1 k = true
      · simp [bucketsInsert, h1, h2, hasKey]
      · simp [bucketsInsert, h1, h2, hasKey]
    · simp [bucketsInsert, h1, hasKey] at ih ⊢
      right
      exact ih

/-- `entry(k).or_default()` guarantees the key is present afterwards. -/
theorem hasKey_entryOrDefault (k : Level) (bs : Buckets) :
    hasKey k (entryOrDefault k bs) = true := by
  unfold entryOrDefault
  by_cases h : hasKey k bs = true
  · rwa [if_pos h]
  · rw [if_neg h]
    exact hasKey_bucketsInsert_self k Stat.default bs

/-- The `+infinity` key is present in the freshly constructed state, for any
levels argument. -/
theorem inf_mem_new (levels : List Level) :
    Level.inf ∈ (HistogramState.new levels).buckets.map Prod.fst :=
  (hasKey_iff_mem _ _).mp (hasKey_entryOrDefault Level.inf _)

/-- When the `+infinity` key is present, the bucket scan adds the amount to
exactly one bucket, so the bucket sums grow by the amount. -/
theorem bucketSums_applyBuckets (v : ℚ) (bs : Buckets)
    (hinf : hasKey Level.inf bs = true) :
    bucketSums (applyBuckets v bs) = bucketSums bs + v := by
  induction bs with
  | nil => simp [hasKey] at hinf
  | cons p rest ih =>
    obtain ⟨level, stat⟩ := p
    by_cases h : Level.leB (Level.fin v) level = true
    · simp [applyBuckets, h, bucketSums, Stat.add]
      ring
    · have hlevel : level ≠ Level.inf := by
        intro heq
        rw [heq, Level.leB_inf] at h
        exact h rfl
      have hinfrest : hasKey Level.inf rest = true := by
        simp [hasKey] at hinf ⊢
        rcases hinf with h1 | h1
        · exact absurd h1 hlevel
        · exact h1
      simp [applyBuckets, h, bucketSums] at ih ⊢
      rw [ih hinfrest]
      ring

/-- The bucket counts grow by exactly one per event (with `+infinity`
present). -/
theorem bucketCounts_applyBuckets (v : ℚ) (bs : Buckets)
    (hinf : hasKey Level.inf bs = true) :
    ((applyBuckets v bs).map fun p => p.2.count).sum
      = ((bs.map fun p => p.2.count).sum) + 1 := by
  induction bs with
  | nil => simp [hasKey] at hinf
  | cons p rest ih =>
    obtain ⟨level, stat⟩ := p
    by_cases h : Level.leB (Level.fin v) level = true
    · simp [applyBuckets, h, Stat.add]
      omega
    · have hlevel : level ≠ Level.inf := by
        intro heq
        rw [heq, Level.leB_inf] at h
        exact h rfl
      have hinfrest : hasKey Level.inf rest = true := by
        simp [hasKey] at hinf ⊢
        rcases hinf with h1 | h1
        · exact absurd h1 hlevel
        · exact h1
      simp [applyBuckets, h] at ih ⊢
      rw [ih hinfrest]
      omega

/-- Insertion of a default stat preserves `allZero`. -/
theorem allZero_bucketsInsert (k : Level) (bs : Buckets) (h : allZero bs) :
    allZero (bucketsInsert k Stat.default bs) := by
  induction bs with
  | nil =>
    intro p hp
    simp [bucketsInsert] at hp
    simp [hp]
  | cons q rest ih =>
    have hq : q.2 = Stat.default := h q (List.mem_cons_self q rest)
    have hrest : allZero rest := fun p hp => h p (List.mem_cons_of_mem q hp)
    intro p hp
    by_cases h1 : Level.leB k q.1 = true
    · by_cases h2 : Level.leB q.1 k = true
      · simp [bucketsInsert, h1, h2] at hp
        rcases hp with h3 | h3
        · simp [h3]
        · exact hrest p h3
      · simp [bucketsInsert, h1, h2] at hp
        rcases hp with h3 | h3 | h3
        · simp [h3]
        · rw [h3]; exact hq
        · exact hrest p h3
    · simp [bucketsInsert, h1] at hp
      rcases hp with h3 | h3
      · rw [h3]; exact hq
      · exact ih hrest p h3

/-- The fold collecting the levels into the map keeps all stats zero. -/
theorem allZero_collect (levels : List Level) (acc : Buckets) (h : allZero acc) :
    allZero (levels.foldl (fun acc l => bucketsInsert l Stat.default acc) acc) := by
  induction levels generalizing acc with
  | nil => exact h
  | cons l rest ih =>
    exact ih _ (allZero_bucketsInsert l acc h)

/-- `entry(k).or_default()` preserves `allZero`. -/
theorem allZero_entryOrDefault (k : Level) (bs : Buckets) (h : allZero bs) :
    allZero (entryOrDefault k bs) := by
  unfold entryOrDefault
  by_cases h1 : hasKey k bs = true
  · rwa [if_pos h1]
  · rw [if_neg h1]
    exact allZero_bucketsInsert k bs h

/-- The freshly constructed state has only zero stats. -/
theorem allZero_new (levels : List Level) : allZero (HistogramState.new levels).buckets :=
  allZero_entryOrDefault _ _
    (allZero_collect levels [] (by intro p hp; simp at hp))

/-- Zero stats sum to zero. -/
theorem bucketSums_allZero (bs : Buckets) (h : allZero bs) : bucketSums bs = 0 := by
  induction bs with
  | nil => rfl
  | cons p rest ih =>
    have hp : p.2 = Stat.default := h p (List.mem_cons_self p rest)
    have hrest : allZero rest := fun q hq => h q (List.mem_cons_of_mem p hq)
    simp [bucketSums, hp, Stat.default] at ih ⊢
    exact ih hrest

/-- The bucket scan updates exactly the first entry (in iteration order)
whose level satisfies `value <= level`, and leaves every other entry
unchanged (`List.set` at that one index). -/
theorem applyBuckets_first_match (v : ℚ) (bs : Buckets)
    (hsome : ∃ p ∈ bs, Level.leB (Level.fin v) p.1 = true) :
    ∃ i, ∃ h : i < bs.length,
      Level.leB (Level.fin v) (bs.get ⟨i, h⟩).1 = true ∧
      (∀ j (hj : j < i), Level.leB (Level.fin v) (bs.get ⟨j, Nat.lt_trans hj h⟩).1 = false) ∧
      applyBuckets v bs = bs.set i ((bs.get ⟨i, h⟩).1, (bs.get ⟨i, h⟩).2.add v) := by
  induction bs with
  | nil => simp at hsome
  | cons p rest ih =>
    obtain ⟨level, stat⟩ := p
    by_cases h : Level.leB (Level.fin v) level = true
    · refine ⟨0, Nat.succ_pos _, h, ?_, ?_⟩
      · intro j hj
        exact absurd hj (Nat.not_lt_zero j)
      · simp [applyBuckets, h]
    · have hrest : ∃ p ∈ rest, Level.leB (Level.fin v) p.1 = true := by
        rcases hsome with ⟨q, hq, hqle⟩
        rcases List.mem_cons.mp hq with h1 | h1
        · rw [h1] at hqle
          exact absurd hqle h
        · exact ⟨q, h1, hqle⟩
      rcases ih hrest with ⟨i, hi, hmatch, hbefore, heq⟩
      refine ⟨i + 1, Nat.succ_lt_succ hi, hmatch, ?_, ?_⟩
      · intro j hj
        cases j with
        | zero => exact Bool.eq_false_iff.mpr h
        | succ j' => exact hbefore j' (Nat.lt_of_succ_lt_succ hj)
      · simp [applyBuckets, h, heq]

/-- `hasKey` depends only on the key sequence. -/
theorem hasKey_eq_of_keys_eq (k : Level) (bs cs : Buckets)
    (h : bs.map Prod.fst = cs.map Prod.fst) : hasKey k bs = hasKey k cs := by
  cases hb : hasKey k bs with
  | true =>
    have hmem := (hasKey_iff_mem k bs).mp hb
    rw [h] at hmem
    exact ((hasKey_iff_mem k cs).mpr hmem).symm
  | false =>
    cases hc : hasKey k cs with
    | true =>
      have hmem := (hasKey_iff_mem k cs).mp hc
      rw [← h] at hmem
      rw [(hasKey_iff_mem k bs).mpr hmem] at hb
      exact absurd hb (by simp)
    | false => rfl

/-- One `apply` step: total count grows by one, total sum and bucket sums
both grow by the event's amount (given the `+infinity` key exists). -/
theorem apply_stats (s : HistogramState) (e : TimedEvent HistogramEvent)
    (hinf : hasKey Level.inf s.buckets = true) :
    (HistogramMetric.apply s e).total.count = s.total.count + 1 ∧
    (HistogramMetric.apply s e).total.sum = s.total.sum + amountOf e ∧
    bucketSums (HistogramMetric.apply s e).buckets = bucketSums s.buckets + amountOf e := by
  obtain ⟨ts, a⟩ := e
  cases a with
  | Add v => exact ⟨rfl, rfl, bucketSums_applyBuckets v s.buckets hinf⟩

/-- Folded `apply` steps: total count grows by the number of events, total
sum and bucket sums by the sum of the amounts. -/
theorem fold_stats (events : List (TimedEvent HistogramEvent)) (s : HistogramState)
    (hinf : hasKey Level.inf s.buckets = true) :
    (List.foldl HistogramMetric.apply s events).total.count
      = s.total.count + events.length ∧
    (List.foldl HistogramMetric.apply s events).total.sum
      = s.total.sum + (events.map amountOf).sum ∧
    bucketSums (List.foldl HistogramMetric.apply s events).buckets
      = bucketSums s.buckets + (events.map amountOf).sum := by
  induction events generalizing s with
  | nil => simp
  | cons e rest ih =>
    have hinf2 : hasKey Level.inf (HistogramMetric.apply s e).buckets = true := by
      rw [hasKey_eq_of_keys_eq Level.inf _ _ (keys_apply s e)]
      exact hinf
    rcases ih (HistogramMetric.apply s e) hinf2 with ⟨h1, h2, h3⟩
    rcases apply_stats s e hinf with ⟨g1, g2, g3⟩
    refine ⟨?_, ?_, ?_⟩
    · rw [List.foldl_cons, h1, g1, List.length_cons]
      omega
    · rw [List.foldl_cons, h2, g2, List.map_cons, List.sum_cons]
      ring
    · rw [List.foldl_cons, h3, g3, List.map_cons, List.sum_cons]
      ring

/-- The bucket scan with a nonnegative amount preserves nonnegativity. -/
theorem allNonneg_applyBuckets (v : ℚ) (hv : 0 ≤ v) (bs : Buckets) (h : allNonneg bs) :
    allNonneg (applyBuckets v bs) := by
  induction bs with
  | nil => exact h
  | cons q rest ih =>
    obtain ⟨level, stat⟩ := q
    have hq : 0 ≤ stat.sum := h (level, stat) (List.mem_cons_self _ _)
    have hrest : allNonneg rest := fun p hp => h p (List.mem_cons_of_mem _ hp)
    by_cases hle : Level.leB (Level.fin v) level = true
    · simp only [applyBuckets, if_pos hle]
      intro p hp
      rcases List.mem_cons.mp hp with h1 | h1
      · rw [h1]
        exact add_nonneg hq hv
      · exact hrest p h1
    · simp only [applyBuckets, if_neg hle]
      intro p hp
      rcases List.mem_cons.mp hp with h1 | h1
      · rw [h1]
        exact hq
      · exact ih hrest p h1

/-- Folding nonnegative events keeps all bucket sums nonnegative. -/
theorem allNonneg_fold (events : List (TimedEvent HistogramEvent)) (s : HistogramState)
    (hev : ∀ e ∈ events, 0 ≤ amountOf e) (h : allNonneg s.buckets) :
    allNonneg (List.foldl HistogramMetric.apply s events).buckets := by
  induction events generalizing s with
  | nil => exact h
  | cons e rest ih =>
    rw [List.foldl_cons]
    refine ih _ (fun q hq => hev q (List.mem_cons_of_mem _ hq)) ?_
    obtain ⟨ts, a⟩ := e
    cases a with
    | Add v =>
      exact allNonneg_applyBuckets v (hev _ (List.mem_cons_self _ _)) s.buckets h

/-- A fresh state has nonnegative (zero) bucket sums. -/
theorem allNonneg_new (levels : List Level) : allNonneg (HistogramState.new levels).buckets := by
  intro p hp
  rw [allZero_new levels p hp]
  exact le_refl 0

/-- Each single bucket sum is bounded by the sum over all buckets, when all
are nonnegative. -/
theorem bucket_le_bucketSums (bs : Buckets) (h : allNonneg bs)
    (p : Level × Stat) (hp : p ∈ bs) : p.2.sum ≤ bucketSums bs := by
  apply List.single_le_sum
  · intro x hx
    rcases List.mem_map.mp hx with ⟨q, hq, hqx⟩
    rw [← hqx]
    exact h q hq
  · exact List.mem_map_of_mem _ hp

/-- The sum over all buckets is nonnegative, when each is. -/
theorem bucketSums_nonneg (bs : Buckets) (h : allNonneg bs) : 0 ≤ bucketSums bs := by
  apply List.sum_nonneg
  intro x hx
  rcases List.mem_map.mp hx with ⟨q, hq, hqx⟩
  rw [← hqx]
  exact h q hq

example : (HistogramState.new [Level.fin 1, Level.fin 5]).buckets.map Prod.fst
    = [Level.fin 1, Level.fin 5, Level.inf] := by decide

example :
    let s := HistogramMetric.apply (HistogramState.new [Level.fin 1, Level.fin 5]) ⟨0, .Add 3⟩
    s.buckets = [(Level.fin 1, ⟨0, 0⟩), (Level.fin 5, ⟨3, 1⟩), (Level.inf, ⟨0, 0⟩)]
      ∧ s.total = ⟨3, 1⟩ := by
  norm_num [HistogramMetric.apply, HistogramState.new, applyBuckets, bucketsInsert,
    entryOrDefault, hasKey, Stat.add, Stat.default, Level.leB]

example :
    (logFold LogState.default ((List.range 25).map fun i => (toString (i + 1), i + 1))).records.length
      = 21 := by decide

/-! ## Claims -/

/-- Claim C1 (code bug evaluation). The spec states a bounded FIFO of
capacity `FRAME_SIZE = 20`: after inserting 25 messages the snapshot should
contain exactly the most recent 20 (timestamps 6..25) and the buffer should
never exceed 20 records. The code pops the front only when
`records.len() > FRAME_SIZE`, so the buffer steady-state length is 21:
after 25 messages (timestamps 1..25) the buffer holds 21 records with
timestamps 5..25, the snapshot returns all 21, and its first entry is
message 5, not message 6. -/
theorem log_snapshot_exceeds_frame_size :
    (logFold LogState.default
        ((List.range 25).map fun i => (toString (i + 1), i + 1))).records.length
      = FRAME_SIZE + 1 ∧
    (LogRecord.to_snapshot (logFold LogState.default
        ((List.range 25).map fun i => (toString (i + 1), i + 1)))).map RillEvent.timestamp
      = (List.range 21).map (fun i => i + 5) := by
  constructor
  · decide
  · decide

/-- Claim C4. `HistogramState::new` produces a state whose buckets contain
the `+infinity` level for every levels argument (also when the argument
already lists `+infinity`, or is empty); `HistogramMetric::apply` never adds
or removes buckets (the key sequence is invariant); hence every state
reachable from `new` by any sequence of `apply` calls still contains the
`+infinity` bucket. -/
theorem histogram_inf_bucket_always_exists (levels : List Level)
    (s : HistogramState) (e : TimedEvent HistogramEvent)
    (events : List (TimedEvent HistogramEvent)) :
    Level.inf ∈ (HistogramState.new levels).buckets.map Prod.fst ∧
    (HistogramMetric.apply s e).buckets.map Prod.fst = s.buckets.map Prod.fst ∧
    Level.inf ∈ (List.foldl HistogramMetric.apply
        (HistogramState.new levels) events).buckets.map Prod.fst := by
  refine ⟨inf_mem_new levels, keys_apply s e, ?_⟩
  rw [keys_foldl]
  exact inf_mem_new levels

/-- Claim C5. Applying any sequence of N `Add` events from
`HistogramState::new(levels)` leaves `total.count = N`, and the sum of all
buckets' `sum` fields equals `total.sum` (arithmetic modelled exactly over
`ℚ`). -/
theorem histogram_total_count_and_sum_invariant (levels : List Level)
    (events : List (TimedEvent HistogramEvent)) :
    (List.foldl HistogramMetric.apply (HistogramState.new levels) events).total.count
      = events.length ∧
    bucketSums (List.foldl HistogramMetric.apply (HistogramState.new levels) events).buckets
      = (List.foldl HistogramMetric.apply (HistogramState.new levels) events).total.sum := by
  rcases fold_stats events (HistogramState.new levels) (hasKey_entryOrDefault Level.inf _)
    with ⟨h1, h2, h3⟩
  constructor
  · rw [h1]
    simp [HistogramState.new, Stat.default]
  · rw [h3, h2, bucketSums_allZero _ (allZero_new levels)]
    simp [HistogramState.new, Stat.default]

/-- Claim C3. On a state satisfying the `BTreeMap` representation invariant
(keys strictly ascending in list order) and containing the `+infinity`
bucket, `apply` of `Add v` updates `total` unconditionally, and updates
exactly one bucket: the first in ascending level order whose level satisfies
`v <= level` (inclusive upper bound, so a value equal to a boundary goes to
that boundary bucket); every bucket before it fails the test and every other
bucket is unchanged (`List.set` at that single index). -/
theorem histogram_apply_updates_first_matching_bucket (s : HistogramState) (v : ℚ) (ts : ℕ)
    (hsorted : sortedBuckets s.buckets)
    (hinf : Level.inf ∈ s.buckets.map Prod.fst) :
    (HistogramMetric.apply s ⟨ts, .Add v⟩).total = s.total.add v ∧
    ∃ i, ∃ h : i < s.buckets.length,
      Level.leB (Level.fin v) (s.buckets.get ⟨i, h⟩).1 = true ∧
      (∀ j (hj : j < i),
        Level.leB (Level.fin v) (s.buckets.get ⟨j, Nat.lt_trans hj h⟩).1 = false) ∧
      (HistogramMetric.apply s ⟨ts, .Add v⟩).buckets
        = s.buckets.set i ((s.buckets.get ⟨i, h⟩).1, (s.buckets.get ⟨i, h⟩).2.add v) := by
  refine ⟨rfl, ?_⟩
  have hsome : ∃ p ∈ s.buckets, Level.leB (Level.fin v) p.1 = true := by
    rcases List.mem_map.mp hinf with ⟨p, hp, hpk⟩
    refine ⟨p, hp, ?_⟩
    rw [hpk]
    exact Level.leB_inf _
  exact applyBuckets_first_match v s.buckets hsome

/-- Witness for C3 at a concrete input: state `new [1, 5]`, value 3. The
hypotheses hold, and the updated bucket is the one at level 5 (index 1). -/
theorem histogram_apply_updates_first_matching_bucket_witness :
    (sortedBuckets (HistogramState.new [Level.fin 1, Level.fin 5]).buckets ∧
      Level.inf ∈ (HistogramState.new [Level.fin 1, Level.fin 5]).buckets.map Prod.fst) ∧
    ((HistogramMetric.apply (HistogramState.new [Level.fin 1, Level.fin 5]) ⟨0, .Add 3⟩).total
        = (HistogramState.new [Level.fin 1, Level.fin 5]).total.add 3 ∧
      ∃ i, ∃ h : i < (HistogramState.new [Level.fin 1, Level.fin 5]).buckets.length,
        Level.leB (Level.fin 3)
          ((HistogramState.new [Level.fin 1, Level.fin 5]).buckets.get ⟨i, h⟩).1 = true ∧
        (∀ j (hj : j < i),
          Level.leB (Level.fin 3)
            ((HistogramState.new [Level.fin 1, Level.fin 5]).buckets.get
              ⟨j, Nat.lt_trans hj h⟩).1 = false) ∧
        (HistogramMetric.apply (HistogramState.new [Level.fin 1, Level.fin 5]) ⟨0, .Add 3⟩).buckets
          = (HistogramState.new [Level.fin 1, Level.fin 5]).buckets.set i
              (((HistogramState.new [Level.fin 1, Level.fin 5]).buckets.get ⟨i, h⟩).1,
                ((HistogramState.new [Level.fin 1, Level.fin 5]).buckets.get ⟨i, h⟩).2.add 3)) :=
  ⟨⟨by decide, by decide⟩,
    histogram_apply_updates_first_matching_bucket (HistogramState.new [Level.fin 1, Level.fin 5])
      3 0 (by decide) (by decide)⟩

/-- Claim C2 (counterexample). The claim says the Tracer's side holds the
pull state only weakly, so that after the Collecting Engine drops its
reference a `record` call leaves no observable effect. In the code it is
the engine that receives the `Weak` (`TracerMode::Pull`), while the tracer's
`InnerMode::Pull` keeps the strong `Arc`: at the concrete input below,
after the engine side drops its handle, a `send` of `Add 2` still mutates
the shared state (total count goes from 0 to 1) — the update is not a
no-op, refuting the claim as stated. -/
theorem pull_send_after_engine_drop_mutates_state :
    (PullWorld.engineDrop
        (PullWorld.new (HistogramState.new [Level.fin 1]))).cell.value.total.count = 0 ∧
    (PullWorld.send HistogramMetric
        (PullWorld.engineDrop (PullWorld.new (HistogramState.new [Level.fin 1])))
        (HistogramEvent.Add 2) none 5).cell.value.total.count = 1 :=
  ⟨rfl, rfl⟩

/-- Claim C2 (amended). In Pull mode the Tracer holds the state strongly
(`Arc<Mutex<State>>` in `InnerMode::Pull`) and the Collecting Engine
receives only a `Weak` (`TracerMode::Pull`). After the engine drops its
handle, an active tracer's `send` with a valid timestamp does not panic
(it is a total function here) and still applies the event to the shared
state; the allocation stays alive (strong count unchanged). -/
theorem pull_send_after_engine_drop_applies_event (M : Metric σ ε) (w : PullWorld σ)
    (e : ε) (t : SysTime) (now : SysTime)
    (hactive : w.tracerActive = true) (ht : 0 ≤ t) :
    (PullWorld.send M (PullWorld.engineDrop w) e (some t) now).cell.value
      = M.apply w.cell.value ⟨t.toNat, e⟩ ∧
    (PullWorld.send M (PullWorld.engineDrop w) e (some t) now).cell.strong
      = w.cell.strong := by
  simp [PullWorld.send, PullWorld.engineDrop, durationSinceEpoch, hactive, ht]

/-- Witness for the amended C2 at a concrete input. -/
theorem pull_send_after_engine_drop_applies_event_witness :
    ((PullWorld.new (HistogramState.new [])).tracerActive = true ∧ (0 : Int) ≤ 3) ∧
    ((PullWorld.send HistogramMetric
        (PullWorld.engineDrop (PullWorld.new (HistogramState.new [])))
        (HistogramEvent.Add 1) (some 3) 0).cell.value
      = HistogramMetric.apply (PullWorld.new (HistogramState.new [])).cell.value
          ⟨(3 : Int).toNat, HistogramEvent.Add 1⟩ ∧
    (PullWorld.send HistogramMetric
        (PullWorld.engineDrop (PullWorld.new (HistogramState.new [])))
        (HistogramEvent.Add 1) (some 3) 0).cell.strong
      = (PullWorld.new (HistogramState.new [])).cell.strong) :=
  ⟨⟨rfl, by decide⟩,
    pull_send_after_engine_drop_applies_event HistogramMetric
      (PullWorld.new (HistogramState.new [])) (HistogramEvent.Add 1) 3 0 rfl (by decide)⟩

/-- Claim C6 (counterexample). With the spec-modelled
`Pct::from_div(value, total) = value / total` (0 when `total = 0`), the
claim that every bar's pct lies in [0,1] fails on a reachable state:
from `new [1]`, record `Add (-1)` then `Add 2`; `total.sum = 1`, and the
two bars have pct `-1` (below 0) and `2` (above 1). -/
theorem histogram_bars_pct_out_of_range :
    (List.foldl HistogramMetric.apply (HistogramState.new [Level.fin 1])
        [⟨0, .Add (-1)⟩, ⟨1, .Add 2⟩]).bars.map Bar.pct = [-1, 2] ∧
    ((-1 : ℚ) < 0 ∧ 1 < (2 : ℚ)) := by
  constructor
  · norm_num [List.foldl, HistogramMetric.apply, HistogramState.new, applyBuckets,
      bucketsInsert, entryOrDefault, hasKey, Stat.add, Stat.default, Level.leB,
      HistogramState.bars, Pct.from_div]
  · norm_num

/-- Claim C6 (amended). `bars()` yields one `Bar` per bucket whose pct is
`Pct::from_div(bucket.sum, total.sum)` — i.e. `bucket.sum / total.sum`,
defined as 0 when `total.sum = 0`, with no division panic (division is
total in the model). For every state reachable from `new` by a sequence of
`Add` events with nonnegative amounts, every pct lies in [0,1]; and
whenever `total.sum = 0`, every bar's pct is 0. -/
theorem histogram_bars_pct_bounds (levels : List Level)
    (events : List (TimedEvent HistogramEvent))
    (hev : ∀ e ∈ events, 0 ≤ amountOf e) :
    let s := List.foldl HistogramMetric.apply (HistogramState.new levels) events
    (s.bars = s.buckets.map fun p => ⟨p.1, p.2.count, Pct.from_div p.2.sum s.total.sum⟩) ∧
    (∀ b ∈ s.bars, 0 ≤ b.pct ∧ b.pct ≤ 1) ∧
    (s.total.sum = 0 → ∀ b ∈ s.bars, b.pct = 0) := by
  intro s
  have hnn : allNonneg s.buckets := allNonneg_fold events _ hev (allNonneg_new levels)
  have hsum : bucketSums s.buckets = s.total.sum := by
    rcases fold_stats events (HistogramState.new levels) (hasKey_entryOrDefault Level.inf _)
      with ⟨h1, h2, h3⟩
    rw [h3, h2, bucketSums_allZero _ (allZero_new levels)]
    simp [HistogramState.new, Stat.default]
  refine ⟨rfl, ?_, ?_⟩
  · intro b hb
    rcases List.mem_map.mp hb with ⟨p, hp, hpb⟩
    have hpct : b.pct = Pct.from_div p.2.sum s.total.sum := by rw [← hpb]
    by_cases h0 : s.total.sum = 0
    · rw [hpct, Pct.from_div, if_pos h0]
      constructor <;> norm_num
    · have hnneg : 0 ≤ s.total.sum := by
        rw [← hsum]
        exact bucketSums_nonneg _ hnn
      have hpos : 0 < s.total.sum := lt_of_le_of_ne hnneg (Ne.symm h0)
      rw [hpct, Pct.from_div, if_neg h0]
      constructor
      · exact div_nonneg (hnn p hp) hnneg
      · rw [div_le_one hpos, ← hsum]
        exact bucket_le_bucketSums s.buckets hnn p hp
  · intro h0 b hb
    rcases List.mem_map.mp hb with ⟨p, hp, hpb⟩
    rw [← hpb]
    show Pct.from_div p.2.sum s.total.sum = 0
    rw [Pct.from_div, if_pos h0]

/-- Witness for the amended C6 at a concrete input: levels `[5]`, events
`Add 1`, `Add 7` (both nonnegative). -/
theorem histogram_bars_pct_bounds_witness :
    (∀ e ∈ [(⟨0, .Add 1⟩ : TimedEvent HistogramEvent), ⟨1, .Add 7⟩], 0 ≤ amountOf e) ∧
    (let s := List.foldl HistogramMetric.apply (HistogramState.new [Level.fin 5])
        [⟨0, .Add 1⟩, ⟨1, .Add 7⟩]
    (s.bars = s.buckets.map fun p => ⟨p.1, p.2.count, Pct.from_div p.2.sum s.total.sum⟩) ∧
    (∀ b ∈ s.bars, 0 ≤ b.pct ∧ b.pct ≤ 1) ∧
    (s.total.sum = 0 → ∀ b ∈ s.bars, b.pct = 0)) :=
  ⟨by decide,
    histogram_bars_pct_bounds [Level.fin 5] [⟨0, .Add 1⟩, ⟨1, .Add 7⟩] (by decide)⟩

/-- Claim C7. When the activation flag reads `false`, `Tracer::send`
returns at once with zero observable change: the tracer (its Pull cell, its
Push queue) is returned unchanged, for every event, every optional
timestamp argument, and every ambient clock value — so no timestamp is
derived from the clock. -/
theorem tracer_send_inactive_is_noop (M : Metric σ ε) (t : Tracer σ ε) (data : ε)
    (opt_system_time : Option SysTime) (now : SysTime)
    (h : t.is_active = false) :
    Tracer.send M t data opt_system_time now = t := by
  simp [Tracer.send, h]

/-- Witness for C7 at a concrete inactive tracer. -/
theorem tracer_send_inactive_is_noop_witness :
    Tracer.is_active
        (⟨false, ⟨"app.metric", "info", "rillrate.histogram.v0"⟩, InnerMode.push []⟩
          : Tracer HistogramState HistogramEvent) = false ∧
    Tracer.send HistogramMetric
        ⟨false, ⟨"app.metric", "info", "rillrate.histogram.v0"⟩, InnerMode.push []⟩
        (HistogramEvent.Add 1) none 7
      = ⟨false, ⟨"app.metric", "info", "rillrate.histogram.v0"⟩, InnerMode.push []⟩ :=
  ⟨rfl,
    tracer_send_inactive_is_noop HistogramMetric
      ⟨false, ⟨"app.metric", "info", "rillrate.histogram.v0"⟩, InnerMode.push []⟩
      (HistogramEvent.Add 1) none 7 rfl⟩

/-- Claim C8. For an active tracer, when the timestamp derivation
(`duration_since(UNIX_EPOCH)`) fails, the event is dropped: no channel
send, no state mutation (the tracer is returned unchanged); the error is
only logged, and `send` — a total function into `Tracer`, returning unit
in the code — neither returns an error nor panics. -/
theorem tracer_send_clock_error_drops_event (M : Metric σ ε) (t : Tracer σ ε) (data : ε)
    (opt_system_time : Option SysTime) (now : SysTime)
    (hactive : t.is_active = true)
    (herr : durationSinceEpoch (opt_system_time.getD now) = .error ()) :
    Tracer.send M t data opt_system_time now = t := by
  simp [Tracer.send, hactive, herr]

/-- Witness for C8: an active tracer recording with a provided system time
before the Unix epoch. -/
theorem tracer_send_clock_error_drops_event_witness :
    (Tracer.is_active
        (⟨true, ⟨"app.metric", "info", "rillrate.histogram.v0"⟩, InnerMode.push []⟩
          : Tracer HistogramState HistogramEvent) = true ∧
      durationSinceEpoch ((some (-5) : Option SysTime).getD 7) = .error ()) ∧
    Tracer.send HistogramMetric
        ⟨true, ⟨"app.metric", "info", "rillrate.histogram.v0"⟩, InnerMode.push []⟩
        (HistogramEvent.Add 1) (some (-5)) 7
      = ⟨true, ⟨"app.metric", "info", "rillrate.histogram.v0"⟩, InnerMode.push []⟩ :=
  ⟨⟨rfl, rfl⟩,
    tracer_send_clock_error_drops_event HistogramMetric
      ⟨true, ⟨"app.metric", "info", "rillrate.histogram.v0"⟩, InnerMode.push []⟩
      (HistogramEvent.Add 1) (some (-5)) 7 rfl rfl⟩

/-- Claim C9. `Tracer::new` returns a fully constructed tracer no matter
what the Registration Link answers: the error case is only logged, and the
returned tracer is identical — same description, same mode, same activation
flag — to the success case; its description is built from the path and the
metric's stream type, and its flag reads `true`. -/
theorem tracer_new_ignores_registration_result (M : Metric σ ε) (state : σ) (path : String)
    (pull : Option ℕ) (registerResult : Except String Unit) :
    Tracer.new M state path pull registerResult = Tracer.new M state path pull (.ok ()) ∧
    (Tracer.new M state path pull registerResult).is_active = true ∧
    (Tracer.new M state path pull registerResult).description
      = ⟨path, path ++ " - " ++ M.stream_type, M.stream_type⟩ := by
  cases registerResult <;> cases pull <;> simp [Tracer.new, Tracer.is_active]

/-- Claim C10. Every tracer built by `Tracer::new` has `is_active() = true`
(the watch channel starts at `true` and its sender is dropped inside `new`,
so no writer remains), and the flag is preserved by every operation the
tracer supports — `clone` and `send` — so it stays `true` for the whole
lifetime of the tracer and all its clones, and the inactive fast path of
`send` is unreachable for tracers built through this constructor. -/
theorem tracer_new_always_active (M : Metric σ ε) (state : σ) (path : String)
    (pull : Option ℕ) (registerResult : Except String Unit) (t : Tracer σ ε) (data : ε)
    (opt_system_time : Option SysTime) (now : SysTime) :
    (Tracer.new M state path pull registerResult).is_active = true ∧
    t.clone.is_active = t.is_active ∧
    (Tracer.send M t data opt_system_time now).is_active = t.is_active := by
  refine ⟨?_, rfl, ?_⟩
  · cases registerResult <;> rfl
  · simp only [Tracer.send, Tracer.is_active]
    split
    · split
      · split <;> rfl
      · rfl
    · rfl
